import Mathlib

/-!
Shallow embedding of the storm note-taking app's tag ranking and relevance
engine (`src/lib/rank.ts`) and its data model (`src/lib/types.ts`).
Timestamps and scores are modelled as rationals; JS `Set<string>` values are
modelled as `Finset String`; JS `Record` maps read through the `?? 0`
accessor are modelled as total functions defaulting to 0 outside their keys.
The JS stable `Array.sort` with a numeric comparator is modelled by
`List.insertionSort` with the corresponding total preorder.
-/

/-- A note record: `src/lib/types.ts`. -/
structure Note where
  id : String
  title : String
  body : String
  tags : List String
  createdAt : ℚ
  updatedAt : ℚ
deriving DecidableEq

/-- The timestamp `n.updatedAt || n.createdAt`: `updatedAt` falls back to
`createdAt` exactly when it is the (falsy) value 0. -/
def effTime (n : Note) : ℚ := if n.updatedAt = 0 then n.createdAt else n.updatedAt

/-- `Math.max` on two numbers. -/
def qmax (a b : ℚ) : ℚ := if a ≤ b then b else a

/-- `Math.min` on two numbers. -/
def qmin (a b : ℚ) : ℚ := if a ≤ b then a else b

/-- Append a key unless already present; models insertion into a JS object /
`Set`, whose key order is first-occurrence order. -/
def insertKey (acc : List String) (t : String) : List String :=
  if t ∈ acc then acc else acc ++ [t]

/-- Keys in first-occurrence order, deduplicated. -/
def firstDedup (l : List String) : List String := l.foldl insertKey []

/-- A tag index: the object's keys in insertion order together with, for each
tag, the set of note ids carrying it (`TagIndex = Record<string, Set<string>>`). -/
structure TagIndex where
  keys : List String
  sets : String → Finset String

/-- `buildTagIndex` from `rank.ts`: tag → set of ids of the notes carrying it;
keys appear in order of first occurrence over the notes' tag lists. -/
def buildTagIndex (notes : List Note) : TagIndex where
  keys := firstDedup (notes.foldl (fun acc n => acc ++ n.tags) [])
  sets := fun t => ((notes.filter (fun n => decide (t ∈ n.tags))).map Note.id).toFinset

/-- `jaccard` from `rank.ts`: intersection over union of two id sets, with the
empty/empty and zero-union guards of the source. -/
def jaccard (a b : Finset String) : ℚ :=
  if a.card = 0 ∧ b.card = 0 then 0
  else
    let inter := (a ∩ b).card
    let uni := a.card + b.card - inter
    if uni = 0 then 0 else (inter : ℚ) / (uni : ℚ)

/-- `tagSimilarityMatrix` from `rank.ts`, read through the consumers'
`sim[a]?.[b] ?? 0` accessor: 1 on the diagonal, `jaccard` off it, and 0 for
any tag outside the index's keys. -/
def tagSimilarityMatrix (idx : TagIndex) (a b : String) : ℚ :=
  if a ∈ idx.keys ∧ b ∈ idx.keys then
    (if a = b then 1 else jaccard (idx.sets a) (idx.sets b))
  else 0

/-- The `Math.max(0, ...nums)` step of `normalize` in `rank.ts`. -/
def normalizeMax (nums : List ℚ) : ℚ := nums.foldl qmax 0

/-- The `lastUsed` accumulation of `tagBaseScores`: the running
`Math.max(lastUsed[t] ?? 0, n.updatedAt || n.createdAt)` over the notes
carrying tag `t`. -/
def lastUsed (notes : List Note) (t : String) : ℚ :=
  notes.foldl (fun acc n => if t ∈ n.tags then qmax acc (effTime n) else acc) 0

/-- The per-tag recency of `tagBaseScores`: linear decay to 0 over 30 days
(2592000000 ms). -/
def tagRecency (notes : List Note) (now : ℚ) (t : String) : ℚ :=
  1 - qmin 1 ((now - lastUsed notes t) / 2592000000)

/-- `tagBaseScores` from `rank.ts`, with the source's hidden `Date.now()` made
an explicit `now` argument; the returned record is read through `?? 0`, hence
0 outside the index's keys. -/
def tagBaseScores (notes : List Note) (now : ℚ) : String → ℚ := fun t =>
  let idx := buildTagIndex notes
  let maxFreq := normalizeMax (idx.keys.map (fun s => ((idx.sets s).card : ℚ)))
  if t ∈ idx.keys then
    (if maxFreq = 0 then 0 else ((idx.sets t).card : ℚ) / maxFreq)
      + 1/5 * tagRecency notes now t
  else 0

/-- The inner `maxSim` accumulation of `rankDiverseTags`. -/
def maxSimTo (sim : String → String → ℚ) (t : String) (out : List String) : ℚ :=
  out.foldl (fun acc s => qmax acc (sim t s)) 0

/-- The MMR score `lambda * rel - (1 - lambda) * maxSim` of `rankDiverseTags`. -/
def mmrScore (base : String → ℚ) (sim : String → String → ℚ) (lambda : ℚ)
    (out : List String) (t : String) : ℚ :=
  lambda * base t - (1 - lambda) * maxSimTo sim t out

/-- The best-candidate pass of `rankDiverseTags`: starting from
`bestScore = -Infinity` (so the first candidate always wins) and replacing the
best only on a strictly greater score, so ties keep the first-encountered tag. -/
def selectBest (cand : List String) (score : String → ℚ) : Option String :=
  cand.foldl (fun best t =>
    match best with
    | none => some t
    | some b => if score b < score t then some t else some b) none

/-- Fold of the best-candidate pass once a first candidate is in hand: keep
the incumbent unless a later tag scores strictly higher. -/
def pickBest (score : String → ℚ) (b : String) (l : List String) : String :=
  l.foldl (fun b t => if score b < score t then t else b) b

/-- The loop guard `out.length < limit`, where `none` models `Infinity`. -/
def ltLim (n : ℕ) : Option ℕ → Bool
  | none => true
  | some k => decide (n < k)

/-- Minimum with an optional bound: `min(limit, n)` where `none` is `Infinity`. -/
def minLim : Option ℕ → ℕ → ℕ
  | none, n => n
  | some k, n => min k n

/-- The `while (cand.size && out.length < limit)` loop of `rankDiverseTags`;
each pass removes one candidate, so the candidate count is enough fuel. The
source's `if (!bestTag) break` is a JS falsy test: it exits the loop both when
no best tag was set and when the winning tag is the empty string `""`. -/
def rankDiverseGo (base : String → ℚ) (sim : String → String → ℚ) (lambda : ℚ)
    (limit : Option ℕ) : ℕ → List String → List String → List String
  | 0, _, out => out
  | fuel + 1, cand, out =>
    if cand.isEmpty || !(ltLim out.length limit) then out
    else
      match selectBest cand (mmrScore base sim lambda out) with
      | none => out
      | some bt =>
        if bt = "" then out
        else rankDiverseGo base sim lambda limit fuel (cand.erase bt) (out ++ [bt])

/-- `rankDiverseTags` from `rank.ts`: greedy MMR selection over the
deduplicated candidates (`new Set(tags)` keeps first occurrences); the loop
stops early, emitting nothing further, whenever the empty-string tag wins a
round (the `!bestTag` falsy break). -/
def rankDiverseTags (tags : List String) (base : String → ℚ) (sim : String → String → ℚ)
    (lambda : ℚ) (limit : Option ℕ) : List String :=
  let cand := firstDedup tags
  rankDiverseGo base sim lambda limit cand.length cand []

/-- JS stable `Array.sort((a, b) => key(b) - key(a))`: a stable sort
descending by `key` (insertion sort is stable, and a stable sort is unique). -/
def sortDesc {α : Type} (key : α → ℚ) (l : List α) : List α :=
  List.insertionSort (fun a b => key b ≤ key a) l

/-- A stable sort of candidate tags by base score, descending: the order the
spec describes for `rankDiverse` with `lambda = 1`. -/
def stableSortByBaseDesc (base : String → ℚ) (cands : List String) : List String :=
  sortDesc base cands

/-- The `idMap[n.id]` lookup of `directAndRelatedNotes`:
`Object.fromEntries(notes.map(n => [n.id, n]))` keeps the last entry per id.
The `none` branch is unreachable for `n ∈ notes` (some entry has `n`'s id). -/
def idMapGet (notes : List Note) (n : Note) : Note :=
  match notes.reverse.find? (fun m => decide (m.id = n.id)) with
  | some m => m
  | none => n

/-- The `overlap` count of `directAndRelatedNotes`: how many of the note's
tags are selected. -/
def overlapCount (selected : List String) (n : Note) : ℕ :=
  (n.tags.filter (fun t => decide (t ∈ selected))).length

/-- The `co` accumulation of `directAndRelatedNotes`: sum of
`sim[st]?.[nt] ?? 0` over every (selected tag, note tag) pair. -/
def coOccurrenceSum (sim : String → String → ℚ) (selected : List String) (n : Note) : ℚ :=
  selected.foldl (fun acc st => n.tags.foldl (fun a nt => a + sim st nt) acc) 0

/-- The per-note recency of `directAndRelatedNotes`: 30-day linear decay. -/
def noteRecency (now : ℚ) (n : Note) : ℚ :=
  1 - qmin 1 ((now - effTime n) / 2592000000)

/-- The full related-note score of `directAndRelatedNotes`:
`overlap * 5 + co + rec * 0.5 + freqBoost` with `freqBoost = tags.length * 0.1`. -/
def relatedScore (sim : String → String → ℚ) (selected : List String) (now : ℚ)
    (n : Note) : ℚ :=
  (overlapCount selected n : ℚ) * 5 + coOccurrenceSum sim selected n
    + noteRecency now n * (1/2) + (n.tags.length : ℚ) * (1/10)

/-- `directAndRelatedNotes` from `rank.ts`, with `Date.now()` explicit. -/
def directAndRelatedNotes (notes : List Note) (selected : List String) (now : ℚ) :
    List Note × List (Note × ℚ) :=
  let tagIdx := buildTagIndex notes
  let sim := tagSimilarityMatrix tagIdx
  let direct := sortDesc effTime
    (notes.filter (fun n => decide (∀ t ∈ selected, t ∈ n.tags)))
  let rest := notes.filter (fun n => decide (n ∉ direct))
  let related := sortDesc Prod.snd
    (rest.map (fun n => (idMapGet notes n, relatedScore sim selected now n)))
  (direct, related)

/-! Concrete inputs used by witnesses and counterexamples. -/

/-- Example note `a{tags:[x,y]}` of the direct-filter example. -/
def exA : Note := ⟨"a", "a", "", ["x", "y"], 9000, 9000⟩

/-- Example note `b{tags:[x]}` of the direct-filter example. -/
def exB : Note := ⟨"b", "b", "", ["x"], 5000, 5000⟩

/-- Example note `c{tags:[y,z]}` of the direct-filter example. -/
def exC : Note := ⟨"c", "c", "", ["y", "z"], 8000, 8000⟩

/-- Example note `d{tags:[w]}` of the direct-filter example. -/
def exD : Note := ⟨"d", "d", "", ["w"], 100, 100⟩

/-- The four-note collection of the direct-filter example. -/
def exNotes : List Note := [exA, exB, exC, exD]

/-- A one-note collection used to exercise empty selections and recency. -/
def exE : Note := ⟨"e", "e", "", ["t"], 1, 1⟩

/-- The base-score map of the MMR examples:
`{red: 1.0, blue: 0.9, green: 0.8, cyan: 0.7}` (0 elsewhere). -/
def exBase : String → ℚ := fun t =>
  if t = "red" then 1 else if t = "blue" then 9/10
  else if t = "green" then 8/10 else if t = "cyan" then 7/10 else 0

/-! Basic properties of the embedded primitives. -/

theorem qmax_eq_max (a b : ℚ) : qmax a b = max a b := by
  rw [qmax, max_def]

theorem qmin_eq_min (a b : ℚ) : qmin a b = min a b := by
  rw [qmin, min_def]

theorem mem_insertKey {x t : String} {acc : List String} :
    x ∈ insertKey acc t ↔ x ∈ acc ∨ x = t := by
  unfold insertKey
  split
  · constructor
    · exact fun h => Or.inl h
    · rintro (h | rfl) <;> assumption
  · simp [List.mem_append]

theorem nodup_insertKey {t : String} {acc : List String} (h : acc.Nodup) :
    (insertKey acc t).Nodup := by
  unfold insertKey
  split
  · exact h
  · next hn => simpa [List.nodup_append] using ⟨h, hn⟩

theorem mem_foldl_insertKey {x : String} :
    ∀ (l acc : List String), x ∈ l.foldl insertKey acc ↔ x ∈ acc ∨ x ∈ l := by
  intro l
  induction l with
  | nil => simp
  | cons t l ih =>
    intro acc
    rw [List.foldl_cons, ih, mem_insertKey]
    constructor
    · rintro ((h | rfl) | h)
      · exact Or.inl h
      · exact Or.inr (List.mem_cons_self _ _)
      · exact Or.inr (List.mem_cons_of_mem _ h)
    · rintro (h | h)
      · exact Or.inl (Or.inl h)
      · rcases List.mem_cons.mp h with rfl | h
        · exact Or.inl (Or.inr rfl)
        · exact Or.inr h

theorem nodup_foldl_insertKey :
    ∀ (l acc : List String), acc.Nodup → (l.foldl insertKey acc).Nodup := by
  intro l
  induction l with
  | nil => exact fun acc h => h
  | cons t l ih => exact fun acc h => ih _ (nodup_insertKey h)

theorem mem_firstDedup {x : String} {l : List String} : x ∈ firstDedup l ↔ x ∈ l := by
  rw [firstDedup, mem_foldl_insertKey]
  simp

theorem nodup_firstDedup (l : List String) : (firstDedup l).Nodup :=
  nodup_foldl_insertKey l [] List.nodup_nil

theorem sortDesc_perm {α : Type} (key : α → ℚ) (l : List α) :
    (sortDesc key l).Perm l :=
  List.perm_insertionSort _ l

theorem mem_sortDesc {α : Type} {key : α → ℚ} {l : List α} {x : α} :
    x ∈ sortDesc key l ↔ x ∈ l :=
  (sortDesc_perm key l).mem_iff

theorem sortDesc_pairwise {α : Type} (key : α → ℚ) (l : List α) :
    (sortDesc key l).Pairwise (fun a b => key b ≤ key a) := by
  haveI : IsTotal α (fun a b => key b ≤ key a) := ⟨fun a b => le_total (key b) (key a)⟩
  haveI : IsTrans α (fun a b => key b ≤ key a) :=
    ⟨fun _ _ _ h1 h2 => le_trans h2 h1⟩
  exact List.sorted_insertionSort _ l

/-! The greedy best-candidate pass and its relation to stable sorting. -/

theorem pickBest_nil (score : String → ℚ) (b : String) : pickBest score b [] = b := rfl

theorem pickBest_cons (score : String → ℚ) (b t : String) (xs : List String) :
    pickBest score b (t :: xs) = pickBest score (if score b < score t then t else b) xs := rfl

theorem selectBest_foldl_some (score : String → ℚ) :
    ∀ (xs : List String) (b : String),
      xs.foldl (fun best t =>
        match best with
        | none => some t
        | some b => if score b < score t then some t else some b) (some b)
        = some (pickBest score b xs)
  | [], _ => rfl
  | t :: xs, b => by
    rw [List.foldl_cons, pickBest_cons]
    show xs.foldl _ (if score b < score t then some t else some b) = _
    by_cases h : score b < score t
    · rw [if_pos h, if_pos h]
      exact selectBest_foldl_some score xs t
    · rw [if_neg h, if_neg h]
      exact selectBest_foldl_some score xs b

theorem selectBest_cons (score : String → ℚ) (x : String) (xs : List String) :
    selectBest (x :: xs) score = some (pickBest score x xs) := by
  rw [selectBest, List.foldl_cons]
  exact selectBest_foldl_some score xs x

theorem pickBest_mem (score : String → ℚ) :
    ∀ (xs : List String) (b : String), pickBest score b xs ∈ b :: xs
  | [], b => List.mem_cons_self b []
  | t :: xs, b => by
    rw [pickBest_cons]
    have h := pickBest_mem score xs (if score b < score t then t else b)
    rcases List.mem_cons.mp h with h' | h'
    · rw [h']
      split
      · exact List.mem_cons_of_mem _ (List.mem_cons_self _ _)
      · exact List.mem_cons_self _ _
    · exact List.mem_cons_of_mem _ (List.mem_cons_of_mem _ h')

theorem pickBest_le (score : String → ℚ) :
    ∀ (xs : List String) (b x : String), x ∈ b :: xs → score x ≤ score (pickBest score b xs)
  | [], b, x, hx => by
    rcases List.mem_cons.mp hx with rfl | h
    · exact le_refl _
    · cases h
  | t :: xs, b, x, hx => by
    rw [pickBest_cons]
    have hb : score b ≤ score (if score b < score t then t else b) := by
      split
      · next h => exact le_of_lt h
      · exact le_refl _
    have ht : score t ≤ score (if score b < score t then t else b) := by
      split
      · exact le_refl _
      · next h => exact le_of_not_lt h
    have hrec := pickBest_le score xs (if score b < score t then t else b)
    have hhead := hrec _ (List.mem_cons_self _ _)
    rcases List.mem_cons.mp hx with rfl | hx'
    · exact hb.trans hhead
    · rcases List.mem_cons.mp hx' with rfl | hx''
      · exact ht.trans hhead
      · exact hrec x (List.mem_cons_of_mem _ hx'')

theorem pickBest_eq_self (score : String → ℚ) :
    ∀ (xs : List String) (b : String), (∀ x ∈ xs, score x ≤ score b) →
      pickBest score b xs = b
  | [], _, _ => rfl
  | t :: xs, b, h => by
    rw [pickBest_cons, if_neg (not_lt.mpr (h t (List.mem_cons_self _ _)))]
    exact pickBest_eq_self score xs b fun x hx => h x (List.mem_cons_of_mem _ hx)

theorem pickBest_switch (score : String → ℚ) :
    ∀ (ys : List String) (x y : String), score y ≤ score x →
      score x < score (pickBest score y ys) →
      pickBest score x ys = pickBest score y ys
  | [], x, y, hyx, hlt => absurd (hyx.trans_lt hlt) (by rw [pickBest_nil]; exact lt_irrefl _)
  | z :: zs, x, y, hyx, hlt => by
    rw [pickBest_cons, pickBest_cons] at *
    by_cases hxz : score x < score z
    · rw [if_pos hxz, if_pos (hyx.trans_lt hxz)] at *
    · rw [if_neg hxz] at *
      by_cases hyz : score y < score z
      · rw [if_pos hyz] at hlt ⊢
        exact pickBest_switch score zs x z (le_of_not_lt hxz) hlt
      · rw [if_neg hyz] at hlt ⊢
        exact pickBest_switch score zs x y hyx hlt

theorem sortDesc_cons {α : Type} (key : α → ℚ) (x : α) (l : List α) :
    sortDesc key (x :: l) = (sortDesc key l).orderedInsert (fun a b => key b ≤ key a) x := rfl

theorem sortDesc_eq_pickBest_cons (key : String → ℚ) :
    ∀ (xs : List String) (x : String),
      sortDesc key (x :: xs)
        = pickBest key x xs :: sortDesc key ((x :: xs).erase (pickBest key x xs))
  | [], x => by
    simp [sortDesc, List.insertionSort, List.orderedInsert, pickBest_nil]
  | y :: ys, x => by
    have ih := sortDesc_eq_pickBest_cons key ys y
    rw [sortDesc_cons, ih]
    show List.orderedInsert _ x (pickBest key y ys :: _) = _
    rw [List.orderedInsert]
    by_cases h : key (pickBest key y ys) ≤ key x
    · rw [if_pos h]
      have hx : pickBest key x (y :: ys) = x := by
        refine pickBest_eq_self key (y :: ys) x fun z hz => ?_
        exact (pickBest_le key ys y z hz).trans h
      rw [hx, List.erase_cons_head, ih]
    · rw [if_neg h]
      have hlt : key x < key (pickBest key y ys) := lt_of_not_le h
      have hM : pickBest key x (y :: ys) = pickBest key y ys := by
        rw [pickBest_cons]
        by_cases hxy : key x < key y
        · rw [if_pos hxy]
        · rw [if_neg hxy]
          exact pickBest_switch key ys x y (le_of_not_lt hxy) hlt
      have hne : ¬(x == pickBest key x (y :: ys)) := by
        rw [hM]
        simp only [beq_iff_eq]
        intro he
        rw [← he] at hlt
        exact lt_irrefl _ hlt
      rw [hM, ← hM, List.erase_cons_tail hne, hM, sortDesc_cons]

theorem mmrScore_lambda_one (base : String → ℚ) (sim : String → String → ℚ)
    (out : List String) : mmrScore base sim 1 out = base := by
  funext t
  unfold mmrScore
  ring

theorem rankDiverseGo_lambda_one (base : String → ℚ) (sim : String → String → ℚ) :
    ∀ (fuel : ℕ) (cand out : List String), cand.length ≤ fuel → "" ∉ cand →
      rankDiverseGo base sim 1 none fuel cand out = out ++ sortDesc base cand
  | 0, cand, out, h, _ => by
    have : cand = [] := List.eq_nil_of_length_eq_zero (Nat.le_zero.mp h)
    subst this
    simp [rankDiverseGo, sortDesc, List.insertionSort]
  | fuel + 1, cand, out, h, hempty => by
    match cand with
    | [] => simp [rankDiverseGo, sortDesc, List.insertionSort]
    | x :: xs =>
      rw [rankDiverseGo]
      have hguard : ((x :: xs).isEmpty || !(ltLim out.length none)) = false := by
        simp [List.isEmpty, ltLim]
      rw [hguard]
      simp only [Bool.false_eq_true, if_false]
      rw [mmrScore_lambda_one, selectBest_cons]
      have hmem := pickBest_mem base xs x
      have hbt : pickBest base x xs ≠ "" := fun he => hempty (he ▸ hmem)
      have hlen : ((x :: xs).erase (pickBest base x xs)).length ≤ fuel := by
        rw [List.length_erase_of_mem hmem]
        simpa using Nat.le_of_succ_le_succ h
      have hempty2 : "" ∉ (x :: xs).erase (pickBest base x xs) :=
        fun he => hempty (List.mem_of_mem_erase he)
      show (if pickBest base x xs = "" then out
          else rankDiverseGo base sim 1 none fuel ((x :: xs).erase (pickBest base x xs))
            (out ++ [pickBest base x xs])) = out ++ sortDesc base (x :: xs)
      rw [if_neg hbt]
      rw [rankDiverseGo_lambda_one base sim fuel _ _ hlen hempty2]
      rw [sortDesc_eq_pickBest_cons base xs x, List.append_assoc]
      rfl

theorem rankDiverseGo_length_le (base : String → ℚ) (sim : String → String → ℚ)
    (lambda : ℚ) (limit : Option ℕ) :
    ∀ (fuel : ℕ) (cand out : List String), fuel = cand.length →
      (rankDiverseGo base sim lambda limit fuel cand out).length
        ≤ max out.length (minLim limit (out.length + cand.length))
  | 0, _, out, _ => by
    rw [rankDiverseGo]
    exact le_max_left _ _
  | fuel + 1, cand, out, h => by
    match cand with
    | [] => simp at h
    | x :: xs =>
      rw [rankDiverseGo]
      by_cases hlim : ltLim out.length limit = true
      · have hguard : ((x :: xs).isEmpty || !(ltLim out.length limit)) = false := by
          simp [List.isEmpty, hlim]
        rw [hguard]
        simp only [Bool.false_eq_true, if_false]
        rw [selectBest_cons]
        have hmem := pickBest_mem (mmrScore base sim lambda out) xs x
        show (if pickBest (mmrScore base sim lambda out) x xs = "" then out
            else rankDiverseGo base sim lambda limit fuel
              ((x :: xs).erase (pickBest (mmrScore base sim lambda out) x xs))
              (out ++ [pickBest (mmrScore base sim lambda out) x xs])).length ≤ _
        by_cases hbt : pickBest (mmrScore base sim lambda out) x xs = ""
        · rw [if_pos hbt]
          exact le_max_left _ _
        · rw [if_neg hbt]
          have hlen : fuel
              = ((x :: xs).erase (pickBest (mmrScore base sim lambda out) x xs)).length := by
            rw [List.length_erase_of_mem hmem]
            simpa using h
          have hrec := rankDiverseGo_length_le base sim lambda limit fuel _
            (out ++ [pickBest (mmrScore base sim lambda out) x xs]) hlen
          rw [List.length_append, List.length_erase_of_mem hmem] at hrec
          have hc : (x :: xs).length = fuel + 1 := h.symm
          rw [hc] at hrec
          rw [hc]
          cases limit with
          | none =>
            simp only [minLim, List.length_singleton, Nat.add_sub_cancel] at hrec ⊢
            omega
          | some k =>
            have hk : out.length < k := by simpa [ltLim] using hlim
            simp only [minLim, List.length_singleton, Nat.add_sub_cancel] at hrec ⊢
            omega
      · have hguard : ((x :: xs).isEmpty || !(ltLim out.length limit)) = true := by
          simp [List.isEmpty]
          simpa using hlim
        rw [hguard, if_pos rfl]
        exact le_max_left _ _

theorem rankDiverseGo_length_eq (base : String → ℚ) (sim : String → String → ℚ)
    (lambda : ℚ) (limit : Option ℕ) :
    ∀ (fuel : ℕ) (cand out : List String), fuel = cand.length → "" ∉ cand →
      (rankDiverseGo base sim lambda limit fuel cand out).length
        = max out.length (minLim limit (out.length + cand.length))
  | 0, cand, out, h, _ => by
    have : cand = [] := List.eq_nil_of_length_eq_zero h.symm
    subst this
    rw [rankDiverseGo]
    cases limit with
    | none => simp only [minLim, List.length_nil, Nat.add_zero]; omega
    | some k => simp only [minLim, List.length_nil, Nat.add_zero]; omega
  | fuel + 1, cand, out, h, hempty => by
    match cand with
    | [] => simp at h
    | x :: xs =>
      rw [rankDiverseGo]
      by_cases hlim : ltLim out.length limit = true
      · have hguard : ((x :: xs).isEmpty || !(ltLim out.length limit)) = false := by
          simp [List.isEmpty, hlim]
        rw [hguard]
        simp only [Bool.false_eq_true, if_false]
        rw [selectBest_cons]
        have hmem := pickBest_mem (mmrScore base sim lambda out) xs x
        have hbt : pickBest (mmrScore base sim lambda out) x xs ≠ "" :=
          fun he => hempty (he ▸ hmem)
        have hlen : fuel
            = ((x :: xs).erase (pickBest (mmrScore base sim lambda out) x xs)).length := by
          rw [List.length_erase_of_mem hmem]
          simpa using h
        have hempty2 : "" ∉ (x :: xs).erase (pickBest (mmrScore base sim lambda out) x xs) :=
          fun he => hempty (List.mem_of_mem_erase he)
        show (if pickBest (mmrScore base sim lambda out) x xs = "" then out
            else rankDiverseGo base sim lambda limit fuel
              ((x :: xs).erase (pickBest (mmrScore base sim lambda out) x xs))
              (out ++ [pickBest (mmrScore base sim lambda out) x xs])).length = _
        rw [if_neg hbt]
        rw [rankDiverseGo_length_eq base sim lambda limit fuel _ _ hlen hempty2]
        rw [List.length_append, List.length_erase_of_mem hmem]
        have hc : (x :: xs).length = fuel + 1 := h.symm
        cases limit with
        | none => simp [minLim]; omega
        | some k =>
          have hk : out.length < k := by simpa [ltLim] using hlim
          simp [minLim]
          omega
      · have hguard : ((x :: xs).isEmpty || !(ltLim out.length limit)) = true := by
          simp [List.isEmpty]
          simpa using hlim
        rw [hguard, if_pos rfl]
        cases limit with
        | none => simp [ltLim] at hlim
        | some k =>
          have hk : ¬ out.length < k := by simpa [ltLim] using hlim
          simp [minLim]
          omega

theorem rankDiverseGo_nodup (base : String → ℚ) (sim : String → String → ℚ)
    (lambda : ℚ) (limit : Option ℕ) :
    ∀ (fuel : ℕ) (cand out : List String), cand.Nodup → out.Nodup →
      (∀ x ∈ cand, x ∉ out) →
      (rankDiverseGo base sim lambda limit fuel cand out).Nodup
  | 0, cand, out, _, hout, _ => hout
  | fuel + 1, cand, out, hcand, hout, hdisj => by
    match cand with
    | [] =>
      rw [rankDiverseGo]
      simp [List.isEmpty, hout]
    | x :: xs =>
      rw [rankDiverseGo]
      by_cases hlim : ((x :: xs).isEmpty || !(ltLim out.length limit)) = true
      · rw [if_pos hlim]; exact hout
      · rw [if_neg hlim, selectBest_cons]
        have hmem := pickBest_mem (mmrScore base sim lambda out) xs x
        show (if pickBest (mmrScore base sim lambda out) x xs = "" then out
            else rankDiverseGo base sim lambda limit fuel
              ((x :: xs).erase (pickBest (mmrScore base sim lambda out) x xs))
              (out ++ [pickBest (mmrScore base sim lambda out) x xs])).Nodup
        by_cases hbt : pickBest (mmrScore base sim lambda out) x xs = ""
        · rw [if_pos hbt]; exact hout
        · rw [if_neg hbt]
          refine rankDiverseGo_nodup base sim lambda limit fuel _ _
            (hcand.erase _) ?_ ?_
          · simp [List.nodup_append, hout]
            exact hdisj _ hmem
          · intro z hz
            rcases (hcand.mem_erase_iff).mp hz with ⟨hzne, hzmem⟩
            simp [List.mem_append]
            exact ⟨hdisj z hzmem, hzne⟩

unseal Rat.add Rat.sub Rat.mul Rat.inv in
/-- C3 (counterexample): on the single candidate `""` the loop's falsy
`!bestTag` break fires before anything is emitted, so the output length is 0
and not `min(limit, number of distinct candidates) = 1` as the claim states. -/
theorem rankDiverse_length_counterexample :
    ¬ ((rankDiverseTags [""] (fun _ => 0) (fun _ _ => 0) (92/100) none).length
        = minLim none (firstDedup [""]).length) := by decide

/-- C3 (amended): `rankDiverseTags` returns a duplicate-free list whose length
never exceeds `min(limit, number of distinct candidates)`, with equality
whenever no candidate is the empty string (the `!bestTag` falsy break ends the
loop early exactly when the empty-string tag wins a round); the distinct
candidates are `firstDedup tags`, a duplicate-free list with the same members
as `tags`. -/
theorem rankDiverse_no_dup_length_amended (tags : List String) (base : String → ℚ)
    (sim : String → String → ℚ) (lambda : ℚ) (limit : Option ℕ) :
    (rankDiverseTags tags base sim lambda limit).Nodup
    ∧ (rankDiverseTags tags base sim lambda limit).length
        ≤ minLim limit (firstDedup tags).length
    ∧ ("" ∉ tags →
        (rankDiverseTags tags base sim lambda limit).length
          = minLim limit (firstDedup tags).length)
    ∧ (firstDedup tags).Nodup ∧ (∀ x, x ∈ firstDedup tags ↔ x ∈ tags) := by
  refine ⟨?_, ?_, fun hno => ?_, nodup_firstDedup tags, fun x => mem_firstDedup⟩
  · exact rankDiverseGo_nodup base sim lambda limit _ _ _
      (nodup_firstDedup tags) List.nodup_nil (by simp)
  · rw [rankDiverseTags]
    have h := rankDiverseGo_length_le base sim lambda limit
      (firstDedup tags).length (firstDedup tags) [] rfl
    simpa using h
  · have hno2 : "" ∉ firstDedup tags := fun hh => hno (mem_firstDedup.mp hh)
    rw [rankDiverseTags]
    rw [rankDiverseGo_length_eq base sim lambda limit _ _ _ rfl hno2]
    simp

/-- C3 witness: the amended equality at a concrete candidate list free of the
empty string. -/
theorem rankDiverse_no_dup_length_amended_witness :
    ("" ∉ (["u", "v"] : List String))
    ∧ (rankDiverseTags ["u", "v"] (fun _ => 0) (fun _ _ => 0) (92/100) none).length
        = minLim none (firstDedup ["u", "v"]).length :=
  ⟨by decide,
    (rankDiverse_no_dup_length_amended ["u", "v"] (fun _ => 0) (fun _ _ => 0)
        (92/100) none).2.2.1 (by decide)⟩

unseal Rat.add Rat.sub Rat.mul Rat.inv in
/-- C7 (counterexample): on the single candidate `""` (trivially the
top-scored tag) the program's falsy break returns `[]`, while the stable
descending sort of the candidates is `[""]`, so the claimed equality fails. -/
theorem rankDiverse_lambda_one_counterexample :
    ¬ (rankDiverseTags [""] exBase (fun _ _ => 0) 1 none
        = stableSortByBaseDesc exBase (firstDedup [""])) := by decide

unseal Rat.add Rat.sub Rat.mul Rat.inv in
/-- C7 (amended): with `lambda = 1` the similarity penalty vanishes and, for
candidate lists without the empty-string tag, `rankDiverseTags` equals the
stable descending sort of the distinct candidates by base score (ties keep
first-encountered order); the `red/blue/green/cyan` example returns the
candidates in score order for every similarity map. -/
theorem rankDiverse_lambda_one_amended :
    (∀ (tags : List String) (base : String → ℚ) (sim : String → String → ℚ),
        "" ∉ tags →
        rankDiverseTags tags base sim 1 none
          = stableSortByBaseDesc base (firstDedup tags))
    ∧ ∀ sim : String → String → ℚ,
        rankDiverseTags ["red", "blue", "green", "cyan"] exBase sim 1 none
          = ["red", "blue", "green", "cyan"] := by
  have hA : ∀ (tags : List String) (base : String → ℚ) (sim : String → String → ℚ),
      "" ∉ tags →
      rankDiverseTags tags base sim 1 none
        = stableSortByBaseDesc base (firstDedup tags) := by
    intro tags base sim hno
    have hno2 : "" ∉ firstDedup tags := fun hh => hno (mem_firstDedup.mp hh)
    rw [rankDiverseTags, rankDiverseGo_lambda_one base sim _ _ _ (le_refl _) hno2]
    rfl
  exact ⟨hA, fun sim => (hA _ _ sim (by decide)).trans (by decide)⟩

unseal Rat.add Rat.sub Rat.mul Rat.inv in
/-- C7 witness: the amended equality at the four-candidate example. -/
theorem rankDiverse_lambda_one_amended_witness :
    ("" ∉ (["red", "blue", "green", "cyan"] : List String))
    ∧ rankDiverseTags ["red", "blue", "green", "cyan"] exBase (fun _ _ => 0) 1 none
        = stableSortByBaseDesc exBase (firstDedup ["red", "blue", "green", "cyan"]) :=
  ⟨by decide, rankDiverse_lambda_one_amended.1 _ exBase _ (by decide)⟩

/-! Properties of the note relevance engine. -/

theorem dAR_direct (notes : List Note) (sel : List String) (now : ℚ) :
    (directAndRelatedNotes notes sel now).1
      = sortDesc effTime (notes.filter (fun n => decide (∀ t ∈ sel, t ∈ n.tags))) := rfl

theorem dAR_related (notes : List Note) (sel : List String) (now : ℚ) :
    (directAndRelatedNotes notes sel now).2
      = sortDesc Prod.snd
          ((notes.filter (fun n => decide (n ∉ (directAndRelatedNotes notes sel now).1))).map
            (fun n => (idMapGet notes n,
              relatedScore (tagSimilarityMatrix (buildTagIndex notes)) sel now n))) := rfl

theorem mem_dAR_direct {notes : List Note} {sel : List String} {now : ℚ} {n : Note} :
    n ∈ (directAndRelatedNotes notes sel now).1
      ↔ n ∈ notes ∧ ∀ t ∈ sel, t ∈ n.tags := by
  rw [dAR_direct, mem_sortDesc, List.mem_filter]
  simp

theorem idMapGet_eq_self {notes : List Note} (hids : (notes.map Note.id).Nodup)
    {n : Note} (hn : n ∈ notes) : idMapGet notes n = n := by
  rw [idMapGet]
  cases hfind : notes.reverse.find? (fun m => decide (m.id = n.id)) with
  | none =>
    exfalso
    have hall := List.find?_eq_none.mp hfind n (List.mem_reverse.mpr hn)
    simp at hall
  | some m =>
    have hm : m ∈ notes := List.mem_reverse.mp (List.mem_of_find?_eq_some hfind)
    have hid : m.id = n.id := by simpa using List.find?_some hfind
    exact List.inj_on_of_nodup_map hids hm hn hid

/-- C1: a note is in the `direct` list of `directAndRelatedNotes` iff it is in
the collection and carries every selected tag; the list is ordered by recency
(updatedAt falling back to createdAt) descending; and on the example notes
`a{x,y} b{x} c{y,z} d{w}` with selection `[x, y]`, `direct` is exactly `[a]`. -/
theorem direct_filter_correct (notes : List Note) (S : List String) (now : ℚ) :
    (∀ n : Note, n ∈ (directAndRelatedNotes notes S now).1
        ↔ n ∈ notes ∧ ∀ t ∈ S, t ∈ n.tags)
    ∧ (directAndRelatedNotes notes S now).1.Pairwise (fun a b => effTime b ≤ effTime a)
    ∧ (directAndRelatedNotes exNotes ["x", "y"] 10000).1 = [exA] := by
  refine ⟨fun n => mem_dAR_direct, ?_, by decide⟩
  rw [dAR_direct]
  exact sortDesc_pairwise effTime _

/-- C2 (counterexample): with an empty selection the engine does not return an
empty `direct` list — on a one-note collection, `direct` is that note. -/
theorem direct_empty_counterexample :
    ¬ ((directAndRelatedNotes [exE] [] 5).1 = []) := by decide

/-- C2 (amended): with an empty selection the vacuous filter matches every
note, so `direct` is the entire collection ordered by recency descending, and
`related` is empty. -/
theorem direct_empty_amended (notes : List Note) (now : ℚ) :
    (∀ n : Note, n ∈ (directAndRelatedNotes notes [] now).1 ↔ n ∈ notes)
    ∧ (directAndRelatedNotes notes [] now).1.Pairwise (fun a b => effTime b ≤ effTime a)
    ∧ (directAndRelatedNotes notes [] now).2 = [] := by
  refine ⟨fun n => ?_, ?_, ?_⟩
  · rw [mem_dAR_direct]
    simp
  · rw [dAR_direct]
    exact sortDesc_pairwise effTime _
  · rw [dAR_related]
    have hrest : notes.filter
        (fun n => decide (n ∉ (directAndRelatedNotes notes [] now).1)) = [] := by
      rw [List.filter_eq_nil_iff]
      intro n hn
      simp only [decide_eq_true_eq, not_not]
      exact mem_dAR_direct.mpr ⟨hn, by simp⟩
    rw [hrest]
    rfl

/-- C5: for a collection with pairwise-distinct note ids, the `related` list of
`directAndRelatedNotes` consists of exactly the notes not in `direct` (in
particular it never contains a note of `direct`), each paired with the score
`5 * overlapCount + coOccurrenceSum + 0.5 * recency + 0.1 * tagCount`, and it
is sorted by score descending. -/
theorem related_non_overlap_scored (notes : List Note) (sel : List String) (now : ℚ)
    (hids : (notes.map Note.id).Nodup) :
    ((directAndRelatedNotes notes sel now).2.map Prod.fst).Perm
        (notes.filter (fun n => decide (n ∉ (directAndRelatedNotes notes sel now).1)))
    ∧ (∀ p ∈ (directAndRelatedNotes notes sel now).2,
        p.1 ∉ (directAndRelatedNotes notes sel now).1
        ∧ p.2 = 5 * (overlapCount sel p.1 : ℚ)
            + coOccurrenceSum (tagSimilarityMatrix (buildTagIndex notes)) sel p.1
            + (1/2) * noteRecency now p.1 + (1/10) * (p.1.tags.length : ℚ))
    ∧ (directAndRelatedNotes notes sel now).2.Pairwise (fun p q => q.2 ≤ p.2) := by
  have hmapid : (notes.filter
        (fun n => decide (n ∉ (directAndRelatedNotes notes sel now).1))).map
        (fun n => idMapGet notes n)
      = notes.filter (fun n => decide (n ∉ (directAndRelatedNotes notes sel now).1)) := by
    rw [List.map_congr_left, List.map_id]
    intro n hn
    exact idMapGet_eq_self hids (List.mem_filter.mp hn).1
  refine ⟨?_, fun p hp => ?_, ?_⟩
  · rw [dAR_related]
    refine ((sortDesc_perm Prod.snd _).map Prod.fst).trans ?_
    rw [List.map_map]
    have hcomp : (Prod.fst ∘ fun n =>
        (idMapGet notes n,
          relatedScore (tagSimilarityMatrix (buildTagIndex notes)) sel now n))
        = fun n => idMapGet notes n := rfl
    rw [hcomp, hmapid]
  · rw [dAR_related, mem_sortDesc, List.mem_map] at hp
    obtain ⟨n, hn, rfl⟩ := hp
    have hmem := List.mem_filter.mp hn
    have hself : idMapGet notes n = n := idMapGet_eq_self hids hmem.1
    constructor
    · show idMapGet notes n ∉ _
      rw [hself]
      simpa using hmem.2
    · show relatedScore _ sel now n = 5 * (overlapCount sel (idMapGet notes n) : ℚ)
        + coOccurrenceSum _ sel (idMapGet notes n)
        + (1/2) * noteRecency now (idMapGet notes n)
        + (1/10) * ((idMapGet notes n).tags.length : ℚ)
      rw [hself, relatedScore]
      ring
  · rw [dAR_related]
    exact sortDesc_pairwise Prod.snd _

/-- C5 witness: the hypotheses and conclusion at the four-note example with
selection `[x, y]`. -/
theorem related_non_overlap_scored_witness :
    (exNotes.map Note.id).Nodup
    ∧ (((directAndRelatedNotes exNotes ["x", "y"] 10000).2.map Prod.fst).Perm
        (exNotes.filter
          (fun n => decide (n ∉ (directAndRelatedNotes exNotes ["x", "y"] 10000).1)))
    ∧ (∀ p ∈ (directAndRelatedNotes exNotes ["x", "y"] 10000).2,
        p.1 ∉ (directAndRelatedNotes exNotes ["x", "y"] 10000).1
        ∧ p.2 = 5 * (overlapCount ["x", "y"] p.1 : ℚ)
            + coOccurrenceSum (tagSimilarityMatrix (buildTagIndex exNotes)) ["x", "y"] p.1
            + (1/2) * noteRecency 10000 p.1 + (1/10) * (p.1.tags.length : ℚ))
    ∧ (directAndRelatedNotes exNotes ["x", "y"] 10000).2.Pairwise
        (fun p q => q.2 ≤ p.2)) :=
  ⟨by decide, related_non_overlap_scored exNotes ["x", "y"] 10000 (by decide)⟩

/-! Properties of the similarity metric. -/

theorem jaccard_nonneg (a b : Finset String) : 0 ≤ jaccard a b := by
  simp only [jaccard]
  split
  · exact le_refl 0
  · split
    · exact le_refl 0
    · exact div_nonneg (Nat.cast_nonneg _) (Nat.cast_nonneg _)

theorem jaccard_le_one (a b : Finset String) : jaccard a b ≤ 1 := by
  simp only [jaccard]
  split
  · exact zero_le_one
  · split
    · exact zero_le_one
    · next huni =>
      have hile : (a ∩ b).card ≤ a.card + b.card - (a ∩ b).card := by
        have h1 : (a ∩ b).card ≤ a.card := Finset.card_le_card Finset.inter_subset_left
        have h2 : (a ∩ b).card ≤ b.card := Finset.card_le_card Finset.inter_subset_right
        omega
      have hpos : (0:ℚ) < (a.card + b.card - (a ∩ b).card : ℕ) := by
        exact_mod_cast Nat.pos_of_ne_zero huni
      rw [div_le_one hpos]
      exact_mod_cast hile

theorem jaccard_comm (a b : Finset String) : jaccard a b = jaccard b a := by
  simp only [jaccard, Finset.inter_comm b a]
  by_cases h : a.card = 0 ∧ b.card = 0
  · rw [if_pos h, if_pos (show b.card = 0 ∧ a.card = 0 from ⟨h.2, h.1⟩)]
  · rw [if_neg h,
      if_neg (show ¬(b.card = 0 ∧ a.card = 0) from fun h' => h ⟨h'.2, h'.1⟩)]
    have h2 : a.card + b.card = b.card + a.card := Nat.add_comm _ _
    rw [h2]

theorem jaccard_empty_left (b : Finset String) : jaccard ∅ b = 0 := by
  simp only [jaccard, Finset.empty_inter, Finset.card_empty]
  split
  · rfl
  · next h =>
    have hb : b.card ≠ 0 := by simpa using h
    rw [if_neg (by omega)]
    simp

theorem jaccard_empty_right (a : Finset String) : jaccard a ∅ = 0 := by
  rw [jaccard_comm]
  exact jaccard_empty_left a

/-- C6: on every tag index, for tags `a`, `b` of the index, the similarity
matrix entries satisfy `0 ≤ sim(a,b) ≤ 1`, `sim(a,a) = 1` (by definition, even
when `a`'s note set is empty), symmetry, and — off the diagonal, where the set
formula applies — the entry is 0 whenever either tag's note-id set is empty. -/
theorem similarity_bounds (idx : TagIndex) (a b : String)
    (ha : a ∈ idx.keys) (hb : b ∈ idx.keys) :
    0 ≤ tagSimilarityMatrix idx a b
    ∧ tagSimilarityMatrix idx a b ≤ 1
    ∧ tagSimilarityMatrix idx a a = 1
    ∧ tagSimilarityMatrix idx a b = tagSimilarityMatrix idx b a
    ∧ (a ≠ b → idx.sets a = ∅ ∨ idx.sets b = ∅ → tagSimilarityMatrix idx a b = 0) := by
  refine ⟨?_, ?_, ?_, ?_, ?_⟩
  · rw [tagSimilarityMatrix,
      if_pos (show a ∈ idx.keys ∧ b ∈ idx.keys from ⟨ha, hb⟩)]
    split
    · exact zero_le_one
    · exact jaccard_nonneg _ _
  · rw [tagSimilarityMatrix,
      if_pos (show a ∈ idx.keys ∧ b ∈ idx.keys from ⟨ha, hb⟩)]
    split
    · exact le_refl 1
    · exact jaccard_le_one _ _
  · rw [tagSimilarityMatrix,
      if_pos (show a ∈ idx.keys ∧ a ∈ idx.keys from ⟨ha, ha⟩)]
    rw [if_pos (show a = a from rfl)]
  · by_cases hab : a = b
    · subst hab; rfl
    · simp only [tagSimilarityMatrix]
      rw [if_pos (show a ∈ idx.keys ∧ b ∈ idx.keys from ⟨ha, hb⟩),
        if_pos (show b ∈ idx.keys ∧ a ∈ idx.keys from ⟨hb, ha⟩),
        if_neg hab, if_neg (Ne.symm hab)]
      exact jaccard_comm _ _
  · intro hab hemp
    rw [tagSimilarityMatrix,
      if_pos (show a ∈ idx.keys ∧ b ∈ idx.keys from ⟨ha, hb⟩), if_neg hab]
    rcases hemp with h | h
    · rw [h]; exact jaccard_empty_left _
    · rw [h]; exact jaccard_empty_right _

/-- C6 witness: the bounds at the index of the example notes with tags `x`, `y`. -/
theorem similarity_bounds_witness :
    ("x" ∈ (buildTagIndex exNotes).keys ∧ "y" ∈ (buildTagIndex exNotes).keys)
    ∧ (0 ≤ tagSimilarityMatrix (buildTagIndex exNotes) "x" "y"
    ∧ tagSimilarityMatrix (buildTagIndex exNotes) "x" "y" ≤ 1
    ∧ tagSimilarityMatrix (buildTagIndex exNotes) "x" "x" = 1
    ∧ tagSimilarityMatrix (buildTagIndex exNotes) "x" "y"
        = tagSimilarityMatrix (buildTagIndex exNotes) "y" "x"
    ∧ ("x" ≠ "y" → (buildTagIndex exNotes).sets "x" = ∅
          ∨ (buildTagIndex exNotes).sets "y" = ∅ →
        tagSimilarityMatrix (buildTagIndex exNotes) "x" "y" = 0)) :=
  ⟨⟨by decide, by decide⟩,
    similarity_bounds (buildTagIndex exNotes) "x" "y" (by decide) (by decide)⟩

/-! Determinism of the index builder and scoring. -/

unseal Rat.add Rat.sub Rat.mul Rat.inv in
/-- C9 (counterexample): `tagBaseScores` reads the clock, which is a hidden
input affecting its result: on a one-note collection the score maps produced
at two different clock readings differ (recency decays). -/
theorem tagBaseScores_clock_counterexample :
    ¬ (tagBaseScores [exE] 1 = tagBaseScores [exE] 2592000002) := fun h =>
  absurd (congrFun h "t") (by decide)

theorem foldl_lastUsed_le (t : String) (c : ℚ) :
    ∀ (l : List Note) (a : ℚ), a ≤ c → (∀ n ∈ l, effTime n ≤ c) →
      l.foldl (fun acc n => if t ∈ n.tags then qmax acc (effTime n) else acc) a ≤ c
  | [], a, ha, _ => ha
  | n :: l, a, ha, h => by
    rw [List.foldl_cons]
    refine foldl_lastUsed_le t c l _ ?_ (fun m hm => h m (List.mem_cons_of_mem _ hm))
    split
    · rw [qmax_eq_max]
      exact max_le ha (h n (List.mem_cons_self _ _))
    · exact ha

theorem tagRecency_of_stale {notes : List Note} {t : String} {now : ℚ}
    (h : lastUsed notes t ≤ now - 2592000000) : tagRecency notes now t = 0 := by
  rw [tagRecency, qmin_eq_min]
  have h30 : (0:ℚ) < 2592000000 := by norm_num
  have h1 : (1:ℚ) ≤ (now - lastUsed notes t) / 2592000000 := by
    rw [one_le_div h30]
    linarith
  rw [min_eq_left h1]
  ring

/-- C9 (amended): `buildTagIndex` is a pure function of the collection, and
`tagBaseScores` a pure function of the collection and the clock reading it
observes — two calls at one reading agree; moreover once both readings are at
least 30 days past every note's timestamp, the scores coincide (the recency
term has fully decayed), so only then is the clock immaterial. -/
theorem tagBaseScores_determinism_amended (notes : List Note) (now₁ now₂ : ℚ)
    (h₁ : ∀ n ∈ notes, effTime n ≤ now₁ - 2592000000)
    (h₂ : ∀ n ∈ notes, effTime n ≤ now₂ - 2592000000)
    (hn₁ : 2592000000 ≤ now₁) (hn₂ : 2592000000 ≤ now₂) :
    buildTagIndex notes = buildTagIndex notes
    ∧ (∀ now : ℚ, tagBaseScores notes now = tagBaseScores notes now)
    ∧ tagBaseScores notes now₁ = tagBaseScores notes now₂ := by
  refine ⟨rfl, fun _ => rfl, funext fun t => ?_⟩
  have hl₁ : lastUsed notes t ≤ now₁ - 2592000000 := by
    refine foldl_lastUsed_le t _ notes 0 (by linarith) h₁
  have hl₂ : lastUsed notes t ≤ now₂ - 2592000000 := by
    refine foldl_lastUsed_le t _ notes 0 (by linarith) h₂
  simp only [tagBaseScores]
  rw [tagRecency_of_stale hl₁, tagRecency_of_stale hl₂]

unseal Rat.add Rat.sub Rat.mul Rat.inv in
/-- C9 witness: the amended statement at a one-note collection and two clock
readings more than 30 days past the note's timestamp. -/
theorem tagBaseScores_determinism_amended_witness :
    ((∀ n ∈ [exE], effTime n ≤ 2592000001 - 2592000000)
      ∧ (∀ n ∈ [exE], effTime n ≤ 2592000009 - 2592000000)
      ∧ (2592000000:ℚ) ≤ 2592000001 ∧ (2592000000:ℚ) ≤ 2592000009)
    ∧ (buildTagIndex [exE] = buildTagIndex [exE]
      ∧ (∀ now : ℚ, tagBaseScores [exE] now = tagBaseScores [exE] now)
      ∧ tagBaseScores [exE] 2592000001 = tagBaseScores [exE] 2592000009) :=
  ⟨⟨by decide, by decide, by decide, by decide⟩,
    tagBaseScores_determinism_amended [exE] 2592000001 2592000009
      (by decide) (by decide) (by decide) (by decide)⟩

/-! Properties of the tag-bar composer. -/

